import Mathlib

/-
  Verification of the lsync/rgit subsystem of the my-toolbox repository.

  The definitions below are shallow embeddings of the Python code in
  src/my_toolbox/lsync/sync.py, git_meta.py, sync_tree.py, utils.py and
  src/my_toolbox/ui.py.  External effects (the filesystem, spawned git or
  rsync subprocesses, the terminal) are modelled explicitly: the filesystem
  as association lists keyed by path, subprocess output as opaque oracle
  functions, and the terminal as a cell grid with a cursor that only moves
  by relative offsets.
-/

set_option maxRecDepth 4000

/-! ## Posix path model (pathlib PurePosixPath as used by the code)

A path string is parsed by splitting on the separator character, dropping
empty components and single-dot components, and remembering whether the
string began with the separator.  This mirrors how pathlib normalises
paths when the code round-trips strings through Path(...).as_posix(). -/

/-! Code-point level string helpers: Python slicing and affix tests are
code-point based, so they are modelled directly on the character list. -/

def startsWithL : List Char → List Char → Bool
  | _, [] => true
  | [], _ :: _ => false
  | c :: cs, p :: ps => c == p && startsWithL cs ps

def strStartsWith (s p : String) : Bool := startsWithL s.data p.data

def strEndsWith (s p : String) : Bool := startsWithL s.data.reverse p.data.reverse

def strDrop (s : String) (n : Nat) : String := String.mk (s.data.drop n)

def strTake (s : String) (n : Nat) : String := String.mk (s.data.take n)

def splitSlash : List Char → List (List Char)
  | [] => [[]]
  | c :: rest =>
    if c = '/' then [] :: splitSlash rest
    else
      match splitSlash rest with
      | [] => [[c]]
      | h :: t => (c :: h) :: t

def keepComp (cs : List Char) : Option String :=
  if cs = [] ∨ cs = ['.'] then none else some (String.mk cs)

def parseComps (cs : List Char) : List String :=
  (splitSlash cs).filterMap keepComp

def startsSlash : List Char → Bool
  | c :: _ => c == '/'
  | [] => false

structure PPath where
  abs : Bool
  comps : List String
  deriving DecidableEq, Repr

def parsePath (s : String) : PPath :=
  { abs := startsSlash s.data, comps := parseComps s.data }

/-- Separator-intercalation of raw component character lists. -/
def icChars : List (List Char) → List Char
  | [] => []
  | [c] => c
  | c :: c2 :: cs => c ++ '/' :: icChars (c2 :: cs)

def asPosix (p : PPath) : String :=
  if p.comps = [] then (if p.abs then "/" else ".")
  else String.mk ((if p.abs then ['/'] else []) ++ icChars (p.comps.map String.data))

/-- pathlib division p / s for a string right operand. -/
def pJoinStr (p : PPath) (s : String) : PPath :=
  let q := parsePath s
  if q.abs then q else { abs := p.abs, comps := p.comps ++ q.comps }

/-- pathlib Path.name: the final component, or the empty string. -/
def pathNameGet (p : PPath) : String := p.comps.getLastD ""

def rstripSlashL (cs : List Char) : List Char :=
  (cs.reverse.dropWhile (fun c => c = '/')).reverse

/-- Python str.rstrip applied with the separator character. -/
def rstripSlash (s : String) : String := String.mk (rstripSlashL s.data)

/-! ## Git metadata collection (git_meta.py)

GIT_COMMANDS maps capture filenames to git command lines; collect_repo
appends the history limit flag to every command whose filename starts
with "log" and writes the command output to the per-repo cache dir. -/

def gitLogFormat : String :=
  "%C(yellow)%h%C(reset) %C(green)%an%C(reset) %C(blue)%ad%C(reset) %s%C(auto)%d%C(reset)"

def GIT_COMMANDS : List (String × List String) :=
  [ ("log.txt", ["git", "log", "--color=always", "--pretty=format:" ++ gitLogFormat]),
    ("log_all.txt", ["git", "log", "--all", "--graph", "--color=always",
      "--pretty=format:" ++ gitLogFormat]),
    ("status.txt", ["git", "-c", "color.status=always", "status"]),
    ("branch.txt", ["git", "branch", "-vv", "--color=always"]),
    ("diff_stat.txt", ["git", "diff", "--stat", "--color=always"]),
    ("diff.txt", ["git", "diff", "--color=always"]) ]

/-- The default history limit of GitMetaCollector (log_limit argument). -/
def defaultLogLimit : Nat := 200

/-- collect_repo builds the full command: the base command with the
entry-count flag appended when the filename starts with "log". -/
def fullCmd (limit : Nat) (filename : String) (cmd : List String) : List String :=
  cmd ++ (if strStartsWith filename "log" then ["-" ++ toString limit] else [])

/-- The metadata cache as an association list from (repo, filename) to the
captured text; writes prepend so the newest capture shadows older ones. -/
def FSmeta := List ((String × String) × String)

def fsLookup (k : String × String) : FSmeta → Option String
  | [] => none
  | (k2, v) :: rest => if k2 = k then some v else fsLookup k rest

def fsWrite (k : String × String) (v : String) (fs : FSmeta) : FSmeta := (k, v) :: fs

/-- GitMetaCollector.collect_repo: skip non-git repos, otherwise run each
capture command (gitOut is the oracle for subprocess standard output) and
write its output under the repo subdirectory of the cache. -/
def collectRepo (gitOut : String → List String → String) (isGit : String → Bool)
    (limit : Nat) (repo : String) (fs : FSmeta) : FSmeta :=
  if isGit repo then
    GIT_COMMANDS.foldl
      (fun acc pr => fsWrite (repo, pr.1) (gitOut repo (fullCmd limit pr.1 pr.2)) acc) fs
  else fs

/-- GitMetaCollector.collect_all over the repo list (worktree map handled
separately). -/
def collectAllMeta (gitOut : String → List String → String) (isGit : String → Bool)
    (limit : Nat) (repos : List String) (fs : FSmeta) : FSmeta :=
  repos.foldl (fun acc r => collectRepo gitOut isGit limit r acc) fs

/-- GitMetaReader.read_file: return the cached text, or raise
FileNotFoundError when the file was never captured. -/
def readMetaFile (fs : FSmeta) (repo filename : String) : Except String String :=
  match fsLookup (repo, filename) fs with
  | some c => Except.ok c
  | none => Except.error ("Metadata file not found: " ++ repo ++ "/" ++ filename)

/-! ## The transfer planner (sync.py)

_sync_command builds one rsync command line; SyncTool.sync builds one per
host.  The existsP oracle stands for Path.exists on the joined source
directories; gitMetaP is tree.git_meta_dir together with its is_dir flag. -/

def syncCommand (server remoteDir localDir : String)
    (syncDirs ndaDirs : List String) (existsP : PPath → Bool)
    (gitMetaP : PPath) (gitMetaIsDir : Bool) (rsyncIgnorePath : String)
    (delete gitRepo : Bool) (gitIgnore : Option String) : List String :=
  let srcDir := parsePath localDir
  let dstDir := parsePath remoteDir
  let srcDirs0 := (syncDirs.map (fun d => pJoinStr srcDir d)).filter existsP
  let srcDirs1 :=
    if strEndsWith server "-nda" then
      srcDirs0 ++ (ndaDirs.map (fun d => pJoinStr srcDir d)).filter existsP
    else srcDirs0
  let srcDirs2 := if gitMetaIsDir then srcDirs1 ++ [gitMetaP] else srcDirs1
  let base :=
    [ "rsync", "-ah",
      if delete then "--delete" else "",
      "--info=progress2",
      (match gitIgnore with
        | some g => "--exclude-from=" ++ g
        | none => ""),
      "--exclude-from=" ++ rsyncIgnorePath,
      if gitRepo then "" else "--exclude=.git" ]
  let srcStrs := srcDirs2.map (fun d => rstripSlash (asPosix d))
  let dstStr := rstripSlash (asPosix dstDir)
  (base ++ srcStrs ++ [dstStr]).filter (fun s => !(s == ""))

/-- SyncTool.sync with file_or_path = None: local_dir is the sync root,
remote_dir is base_dir / local_dir.name, and the trailing separator is
appended to both strings when the source is a directory. -/
def planCommands (server : String) (hosts : List String) (baseDir : String)
    (rootP : PPath) (isDirSrc : Bool) (syncDirs ndaDirs : List String)
    (existsP : PPath → Bool) (gitMetaP : PPath) (gitMetaIsDir : Bool)
    (rsyncIgnorePath : String) (delete gitRepo : Bool)
    (gitIgnore : Option String) : List (List String) :=
  let remoteDir := pJoinStr (parsePath baseDir) (pathNameGet rootP)
  let isF := if isDirSrc then "/" else ""
  hosts.map (fun host =>
    syncCommand server (host ++ ":" ++ asPosix remoteDir ++ isF)
      (asPosix rootP ++ isF) syncDirs ndaDirs existsP gitMetaP gitMetaIsDir
      rsyncIgnorePath delete gitRepo gitIgnore)

/-- The hosts field of a server config: either a single scalar or a list. -/
inductive HostsCfg where
  | single : String → HostsCfg
  | many : List String → HostsCfg

/-- SyncTool.__post_init__: a non-list hosts value is wrapped in a
one-element list. -/
def normalizeHosts : HostsCfg → List String
  | HostsCfg.single s => [s]
  | HostsCfg.many l => l

/-! ## Worktree discovery (sync_tree.py)

Raw worktree entries are Python dicts, modelled as insertion-ordered
association lists; git worktree porcelain output is parsed line by line. -/

abbrev RawEntry := List (String × String)

abbrev WtMap := List (String × List RawEntry)

/-- Python dict item assignment: update in place when the key is present,
otherwise append (insertion order preserved). -/
def pySetKey (d : RawEntry) (k v : String) : RawEntry :=
  if d.any (fun p => p.1 == k) then
    d.map (fun p => if p.1 == k then (k, v) else p)
  else d ++ [(k, v)]

def lookupKey (d : RawEntry) (k : String) : Option String :=
  (d.find? (fun p => p.1 == k)).map (fun p => p.2)

/-- str.removeprefix for the refs/heads/ ref namespace. -/
def stripHeads (s : String) : String :=
  if strStartsWith s "refs/heads/" then strDrop s 11 else s

/-- One line of the porcelain parse loop; the running state is the list of
finished entries plus the entry under construction (the empty dict, which
is falsy in Python, stands for no current entry). -/
def parseStep (acc : List RawEntry × RawEntry) (line : String) :
    List RawEntry × RawEntry :=
  if strStartsWith line "worktree " then
    let flushed := if acc.2 = [] then acc.1 else acc.1 ++ [acc.2]
    (flushed, [("name", pathNameGet (parsePath (strDrop line 9)))])
  else if strStartsWith line "HEAD " then
    (acc.1, pySetKey acc.2 "head" (strTake (strDrop line 5) 8))
  else if strStartsWith line "branch " then
    (acc.1, pySetKey acc.2 "branch" (stripHeads (strDrop line 7)))
  else acc

def parseWorktrees (lines : List String) : List RawEntry :=
  let r := lines.foldl parseStep ([], [])
  if r.2 = [] then r.1 else r.1 ++ [r.2]

/-- The stale-entry filter: Python evaluates e["name"] for every entry, so
a malformed entry without a name key raises (modelled as error) while an
entry whose directory is absent is silently dropped. -/
def filterExisting (dirExists : String → Bool) : List RawEntry → Except String (List RawEntry)
  | [] => Except.ok []
  | e :: rest =>
    match lookupKey e "name" with
    | none => Except.error "KeyError: name"
    | some n =>
      match filterExisting dirExists rest with
      | Except.error m => Except.error m
      | Except.ok r => Except.ok (if dirExists n then e :: r else r)

/-- SyncTree.discover_worktree_map: per base repo, parse the porcelain
worktree listing, drop entries whose directory is absent under the sync
root, and record the repo only when entries remain. -/
def discoverWtMap (baseDirs : List String) (isGit : String → Bool)
    (porcelain : String → List String) (dirExists : String → Bool) :
    Except String WtMap :=
  baseDirs.foldl
    (fun acc repo =>
      match acc with
      | Except.error m => Except.error m
      | Except.ok m =>
        if isGit repo then
          match filterExisting dirExists (parseWorktrees (porcelain repo)) with
          | Except.error e => Except.error e
          | Except.ok entries =>
            Except.ok (if entries = [] then m else m ++ [(repo, entries)])
        else Except.ok m)
    (Except.ok [])

/-! ## The worktree map file (git_meta.py write and read paths)

json.dumps and json.loads are the standard library treated as a reliable
collaborator, so they are modelled at the JSON value level; JSON objects
keep their fields as ordered lists, matching insertion-ordered Python
dicts. -/

inductive JVal where
  | jstr : String → JVal
  | jarr : List JVal → JVal
  | jobj : List (String × JVal) → JVal
  deriving Repr

def optMapAll : List α → (α → Option β) → Option (List β)
  | [], _ => some []
  | a :: as, f =>
    match f a with
    | none => none
    | some b => (optMapAll as f).map (fun bs => b :: bs)

def encodeEntry (e : RawEntry) : JVal :=
  JVal.jobj (e.map (fun p => (p.1, JVal.jstr p.2)))

def decodeField : String × JVal → Option (String × String)
  | (k, JVal.jstr v) => some (k, v)
  | _ => none

def decodeEntry : JVal → Option RawEntry
  | JVal.jobj fs => optMapAll fs decodeField
  | _ => none

def encodeWtMap (m : WtMap) : JVal :=
  JVal.jobj (m.map (fun p => (p.1, JVal.jarr (p.2.map encodeEntry))))

def decodeRepoEntry : String × JVal → Option (String × List RawEntry)
  | (k, JVal.jarr js) => (optMapAll js decodeEntry).map (fun es => (k, es))
  | _ => none

def decodeWtMap : JVal → Option WtMap
  | JVal.jobj fs => optMapAll fs decodeRepoEntry
  | _ => none

/-- GitMetaCollector._write_worktree_map: an empty map writes nothing at
all, a non-empty map overwrites the worktrees.json file unconditionally. -/
def writeWtMapFile (m : WtMap) (file : Option JVal) : Option JVal :=
  if m = [] then file else some (encodeWtMap m)

/-- GitMetaReader.read_worktree_map: the empty mapping when the file is
absent, otherwise the decoded file content. -/
def readWtMapFile (file : Option JVal) : Option WtMap :=
  match file with
  | none => some []
  | some j => decodeWtMap j

/-! ## Transfer process supervision (utils.py and SyncTool) -/

def redBlockS (s : String) : String := "\x1b[41m" ++ s ++ "\x1b[0m"

def redTextS (s : String) : String := "\x1b[31m" ++ s ++ "\x1b[0m"

def joinSpace : List String → String
  | [] => ""
  | [s] => s
  | s :: s2 :: rest => s ++ " " ++ joinSpace (s2 :: rest)

/-- One spawned transfer: its command line, captured standard error, exit
code and the character stream read from its standard output. -/
structure ProcSpec where
  cmd : List String
  stderrOut : String
  retcode : Int
  output : List Char
  deriving DecidableEq, Repr

/-- The body of the watcher thread started by popen_with_error_check: on a
disallowed or non-zero exit it prints the command line and the captured
standard error (both colorised) and then raises RuntimeError.  The raise
happens on the watcher thread, which nothing joins, so the Python runtime
prints a traceback and discards it; the returned report list is the only
externally visible effect. -/
def watcherReport (allowExit : Bool) (p : ProcSpec) : List String :=
  if (!allowExit) || !(p.retcode == 0) then
    [redBlockS (joinSpace p.cmd), redTextS p.stderrOut]
  else []

def runReports (procs : List ProcSpec) : List String :=
  (procs.map (fun p => watcherReport true p)).flatten

def totalLen (ss : List (List Char)) : Nat := (ss.map List.length).sum

/-- One pass of the polling loop: read at most one character from each
stream, tagging it with the process index (the assigned screen line). -/
def passDeliverFrom (i : Nat) : List (List Char) → List (Nat × Char)
  | [] => []
  | s :: rest =>
    (match s.head? with
      | some c => [(i, c)]
      | none => []) ++ passDeliverFrom (i + 1) rest

def passAdvance (ss : List (List Char)) : List (List Char) :=
  ss.map (List.drop 1)

/-- SyncTool._ui_thread: while not every process has exited, poll each
stream for one character.  A stream is exhausted exactly when its process
has exited; the fuel argument bounds the iteration count and totalLen is
always sufficient fuel. -/
def pollLoopAux : Nat → List (List Char) → List (Nat × Char)
  | 0, _ => []
  | n + 1, ss =>
    if ss.all List.isEmpty then []
    else passDeliverFrom 0 ss ++ pollLoopAux n (passAdvance ss)

def pollLoop (ss : List (List Char)) : List (Nat × Char) :=
  pollLoopAux (totalLen ss) ss

/-- The characters the loop delivered to screen line i, in order. -/
def deliveredTo (i : Nat) (evs : List (Nat × Char)) : List Char :=
  evs.filterMap (fun pr => if pr.1 = i then some pr.2 else none)

structure SyncOutcome where
  uiChars : List (Nat × Char)
  reports : List String
  exitCode : Nat

/-- SyncTool.sync after the processes are spawned: drive the UI loop, wait
on every process, append the history record and print the summary.  No
statement in sync() inspects a transfer returncode, and the RuntimeError a
watcher raises stays on its own thread, so the method always falls
through to the logging step and the orchestrator process exits 0. -/
def runSyncProcs (procs : List ProcSpec) : SyncOutcome :=
  { uiChars := pollLoop (procs.map (fun p => p.output)),
    reports := runReports procs,
    exitCode := 0 }

/-! ## The progress canvas (ui.py UITool)

The terminal is a grid of cells addressed by (row, column) with a real
cursor that only honours relative motion; termLine and termCol are the
actual terminal cursor while curLine and curCol are the positions UITool
believes it is at.  CursorTool emissions become grid cursor moves, and
printing a character writes the cell under the real cursor and advances
both the real column and the tracked column, exactly as in the source. -/

structure UIState where
  maxLines : Nat
  curLine : Int
  curCol : Int
  linePos : List Int
  termLine : Int
  termCol : Int
  screen : Int → Int → Option Char

def moveVertical (n : Int) (st : UIState) : UIState :=
  { st with termLine := st.termLine + n }

def moveHorizontal (n : Int) (st : UIState) : UIState :=
  { st with termCol := st.termCol + n }

/-- UITool.move_cursor with both arguments given (every call site in the
update path passes both). -/
def uiMoveCursor (line col : Int) (st : UIState) : UIState :=
  let st1 := { moveVertical (line - st.curLine) st with curLine := line }
  { moveHorizontal (col - st1.curCol) st1 with curCol := col }

/-- UITool.print_char: emit at the real cursor cell, then advance. -/
def uiPrintChar (c : Char) (st : UIState) : UIState :=
  { st with
    screen := fun l co =>
      if l = st.termLine ∧ co = st.termCol then some c else st.screen l co,
    termCol := st.termCol + 1,
    curCol := st.curCol + 1 }

def uiResetPos (st : UIState) : UIState :=
  uiMoveCursor (st.maxLines : Int) 0 st

/-- UITool.__init__ : zero tracked position, park the cursor below the
canvas, then create the per-line column record. -/
def initUI (maxLines : Nat) : UIState :=
  let st0 : UIState :=
    { maxLines := maxLines, curLine := 0, curCol := 0, linePos := [],
      termLine := 0, termCol := 0, screen := fun _ _ => none }
  let st1 := uiResetPos st0
  { st1 with linePos := List.replicate maxLines 0 }

/-- UITool.update_char. -/
def uiUpdateChar (line : Nat) (c : Char) (st : UIState) : UIState :=
  let st1 :=
    if c = '\n' ∨ c = '\r' then { st with linePos := st.linePos.set line 0 }
    else
      let stA := uiMoveCursor (line : Int) (st.linePos.getD line 0) st
      let stB := uiPrintChar c stA
      { stB with linePos := stB.linePos.set line stB.curCol }
  uiResetPos st1

def runUIFrom (st : UIState) (trace : List (Nat × Char)) : UIState :=
  trace.foldl (fun s pr => uiUpdateChar pr.1 pr.2 s) st

def runUI (maxLines : Nat) (trace : List (Nat × Char)) : UIState :=
  runUIFrom (initUI maxLines) trace

/-- The characters recorded for one line since its last reset: a carriage
return or newline clears the record, any other character appends. -/
def sentStep (acc : List Char) (c : Char) : List Char :=
  if c = '\n' ∨ c = '\r' then [] else acc ++ [c]

def sentSince (trace : List (Nat × Char)) (i : Nat) : List Char :=
  trace.foldl (fun acc pr => if pr.1 = i then sentStep acc pr.2 else acc) []

/-- Full-line content at s: every cell left of the length of s holds the
matching character and every cell at or past it was never written. -/
def lineContentIs (st : UIState) (i : Nat) (s : List Char) : Prop :=
  ∀ c : Nat, st.screen (i : Int) (c : Int) = s.get? c

/-! ## The progress canvas context manager (ui.py UITool.ui_tool)

The context body runs between hide_cursor and the finally block; its
behaviour is abstracted as the events it writes plus the exception it
raises, if any.  isException distinguishes Exception subclasses (caught
by the except clause) from other BaseExceptions such as
KeyboardInterrupt, which Python rethrows past it. -/

inductive Ev where
  | hideCur : Ev
  | showCur : Ev
  | out : String → Ev
  deriving DecidableEq, Repr

structure Exn where
  msg : String
  isException : Bool
  deriving DecidableEq, Repr

/-- Python try/except Exception/finally around an effect trace: the
handler sees only Exception subclasses and swallows what it catches; the
finalizer always runs; an uncaught exception propagates afterwards. -/
def tryExceptFinally (body : List Ev × Option Exn)
    (handler : Exn → List Ev × Option Exn) (finalizer : List Ev) :
    List Ev × Option Exn :=
  match body.2 with
  | none => (body.1 ++ finalizer, none)
  | some e =>
    if e.isException then
      let h := handler e
      (body.1 ++ h.1 ++ finalizer, h.2)
    else (body.1 ++ finalizer, some e)

def HEADER_WIDTH : Nat := 40

def boldS (s : String) : String := "\x1b[1m" ++ s ++ "\x1b[0m"

def repeatStr (s : String) (n : Nat) : String := String.join (List.replicate n s)

def sectionHeaderS (title : String) : String :=
  boldS ("━━ " ++ title ++ " " ++ repeatStr "━" (HEADER_WIDTH - ("━━ " ++ title ++ " ").length))

/-- The writes of UITool construction and print_desc inside ui_tool: the
constructor parks the cursor (a relative move when the canvas has lines)
and print_desc writes the section header then moves back to column 0. -/
def setupEvents (maxLines : Nat) (desc : String) : List Ev :=
  (if 0 < maxLines then [Ev.out ("\x1b[" ++ toString maxLines ++ "B")] else [])
    ++ [Ev.out (sectionHeaderS desc)]
    ++ (if 0 < (sectionHeaderS desc).length then
          [Ev.out ("\x1b[" ++ toString (sectionHeaderS desc).length ++ "D")]
        else [])

/-- UITool.ui_tool: hide the cursor, run setup and the body under
try/except Exception/finally, print a caught exception, and always show
the cursor and emit a final newline. -/
def uiToolCtx (maxLines : Nat) (desc : String) (body : List Ev × Option Exn) :
    List Ev × Option Exn :=
  let tef :=
    tryExceptFinally (setupEvents maxLines desc ++ body.1, body.2)
      (fun e => ([Ev.out (e.msg ++ "\n")], none))
      [Ev.showCur, Ev.out "\n"]
  (Ev.hideCur :: tef.1, tef.2)

/-- The invariant tying a UI state to the per-line record of characters
sent since the last reset: the tracked and real cursor sit together at
the parking position, line_pos holds each record length, and every cell
left of a record length holds the recorded character. -/
def UIInv (L : Nat) (st : UIState) (sent : Nat → List Char) : Prop :=
  st.maxLines = L ∧ st.curLine = (L : Int) ∧ st.curCol = 0 ∧
  st.termLine = (L : Int) ∧ st.termCol = 0 ∧
  st.linePos.length = L ∧
  (∀ i, i < L → st.linePos.getD i 0 = ((sent i).length : Int)) ∧
  (∀ i c, i < L → c < (sent i).length →
    st.screen (i : Int) (c : Int) = (sent i).get? c)

/-! # Theorems -/

/-! ## Metadata cache lemmas (C3, C4) -/

theorem fsLookup_write_eq (k : String × String) (v : String) (fs : FSmeta) :
    fsLookup k (fsWrite k v fs) = some v := by
  simp [fsWrite, fsLookup]

theorem fsLookup_write_ne (k k2 : String × String) (v : String) (fs : FSmeta)
    (h : k2 ≠ k) : fsLookup k (fsWrite k2 v fs) = fsLookup k fs := by
  simp [fsWrite, fsLookup, h]

theorem fsLookup_foldWrite_ne (repo r f : String) (val : String × List String → String)
    (kvs : List (String × List String)) (fs : FSmeta) (h : r ≠ repo) :
    fsLookup (r, f)
        (kvs.foldl (fun acc pr => fsWrite (repo, pr.1) (val pr) acc) fs)
      = fsLookup (r, f) fs := by
  induction kvs generalizing fs with
  | nil => rfl
  | cons p rest ih =>
    simp only [List.foldl_cons]
    rw [ih, fsLookup_write_ne]
    intro hc
    rw [Prod.mk.injEq] at hc
    exact h hc.1.symm

theorem fsLookup_foldWrite_notName (repo fn : String)
    (val : String × List String → String)
    (kvs : List (String × List String)) (fs : FSmeta)
    (h : fn ∉ kvs.map Prod.fst) :
    fsLookup (repo, fn)
        (kvs.foldl (fun acc pr => fsWrite (repo, pr.1) (val pr) acc) fs)
      = fsLookup (repo, fn) fs := by
  induction kvs generalizing fs with
  | nil => rfl
  | cons p rest ih =>
    simp only [List.map_cons, List.mem_cons] at h
    push_neg at h
    simp only [List.foldl_cons]
    rw [ih _ h.2, fsLookup_write_ne]
    intro hc
    rw [Prod.mk.injEq] at hc
    exact h.1 hc.2.symm

theorem fsLookup_foldWrite_hit (repo fn : String) (cmd : List String)
    (val : String × List String → String)
    (kvs : List (String × List String)) (fs : FSmeta)
    (hmem : (fn, cmd) ∈ kvs) (hnd : (kvs.map Prod.fst).Nodup) :
    fsLookup (repo, fn)
        (kvs.foldl (fun acc pr => fsWrite (repo, pr.1) (val pr) acc) fs)
      = some (val (fn, cmd)) := by
  induction kvs generalizing fs with
  | nil => cases hmem
  | cons p rest ih =>
    simp only [List.map_cons, List.nodup_cons] at hnd
    rcases List.mem_cons.mp hmem with heq | hrest
    · subst heq
      simp only [List.foldl_cons]
      rw [fsLookup_foldWrite_notName _ _ _ _ _ hnd.1, fsLookup_write_eq]
    · simp only [List.foldl_cons]
      exact ih _ hrest hnd.2

theorem gitCommands_names_nodup : (GIT_COMMANDS.map Prod.fst).Nodup := by
  decide

theorem collectRepo_lookup (gitOut : String → List String → String)
    (isGit : String → Bool) (limit : Nat) (repo fn : String) (cmd : List String)
    (fs : FSmeta) (hg : isGit repo = true) (hmem : (fn, cmd) ∈ GIT_COMMANDS) :
    fsLookup (repo, fn) (collectRepo gitOut isGit limit repo fs)
      = some (gitOut repo (fullCmd limit fn cmd)) := by
  unfold collectRepo
  rw [hg]
  simp only [if_true]
  exact fsLookup_foldWrite_hit repo fn cmd
    (fun pr => gitOut repo (fullCmd limit pr.1 pr.2)) GIT_COMMANDS fs hmem
    gitCommands_names_nodup

theorem collectRepo_preserve (gitOut : String → List String → String)
    (isGit : String → Bool) (limit : Nat) (repo r f : String) (fs : FSmeta)
    (h : r ≠ repo) :
    fsLookup (r, f) (collectRepo gitOut isGit limit repo fs)
      = fsLookup (r, f) fs := by
  unfold collectRepo
  by_cases hg : isGit repo = true
  · rw [hg]
    simp only [if_true]
    exact fsLookup_foldWrite_ne repo r f _ GIT_COMMANDS fs h
  · simp only [Bool.not_eq_true] at hg
    rw [hg]
    simp

theorem collectAllMeta_preserve (gitOut : String → List String → String)
    (isGit : String → Bool) (limit : Nat) (repos : List String)
    (r f : String) (fs : FSmeta) (h : r ∉ repos) :
    fsLookup (r, f) (collectAllMeta gitOut isGit limit repos fs)
      = fsLookup (r, f) fs := by
  induction repos generalizing fs with
  | nil => rfl
  | cons repo rest ih =>
    simp only [List.mem_cons] at h
    push_neg at h
    simp only [collectAllMeta, List.foldl_cons]
    rw [show List.foldl (fun acc r2 => collectRepo gitOut isGit limit r2 acc)
        (collectRepo gitOut isGit limit repo fs) rest
      = collectAllMeta gitOut isGit limit rest
        (collectRepo gitOut isGit limit repo fs) from rfl]
    rw [ih _ h.2, collectRepo_preserve _ _ _ _ _ _ _ h.1]

theorem collectAllMeta_lookup (gitOut : String → List String → String)
    (isGit : String → Bool) (limit : Nat) (repos : List String)
    (repo fn : String) (cmd : List String) (fs : FSmeta)
    (hrepo : repo ∈ repos) (hg : isGit repo = true)
    (hmem : (fn, cmd) ∈ GIT_COMMANDS) :
    fsLookup (repo, fn) (collectAllMeta gitOut isGit limit repos fs)
      = some (gitOut repo (fullCmd limit fn cmd)) := by
  induction repos generalizing fs with
  | nil => cases hrepo
  | cons r rest ih =>
    simp only [collectAllMeta, List.foldl_cons]
    rw [show List.foldl (fun acc r2 => collectRepo gitOut isGit limit r2 acc)
        (collectRepo gitOut isGit limit r fs) rest
      = collectAllMeta gitOut isGit limit rest
        (collectRepo gitOut isGit limit r fs) from rfl]
    by_cases hr : repo ∈ rest
    · exact ih _ hr
    · have hq : repo = r := by
        rcases List.mem_cons.mp hrepo with h | h
        · exact h
        · exact absurd h hr
      subst hq
      rw [collectAllMeta_preserve _ _ _ _ _ _ _ hr]
      exact collectRepo_lookup gitOut isGit limit repo fn cmd fs hg hmem

/-- C3: after collect_all, read_file returns byte-for-byte the captured
standard output of the corresponding git command for every collected
repository and view, and read_file raises its not-found error exactly
when no file for that repository/view is present in the cache. -/
theorem c3_read_after_collect (gitOut : String → List String → String)
    (isGit : String → Bool) (limit : Nat) (repos : List String)
    (repo fn : String) (cmd : List String) (fs : FSmeta) :
    (repo ∈ repos → isGit repo = true → (fn, cmd) ∈ GIT_COMMANDS →
      readMetaFile (collectAllMeta gitOut isGit limit repos fs) repo fn
        = Except.ok (gitOut repo (fullCmd limit fn cmd)))
    ∧ (∀ fs2 : FSmeta, ∀ r f : String,
        (∃ e, readMetaFile fs2 r f = Except.error e) ↔ fsLookup (r, f) fs2 = none) := by
  constructor
  · intro hrepo hg hmem
    unfold readMetaFile
    rw [collectAllMeta_lookup gitOut isGit limit repos repo fn cmd fs hrepo hg hmem]
  · intro fs2 r f
    unfold readMetaFile
    cases h : fsLookup (r, f) fs2 with
    | none => simp
    | some c => simp

theorem c3_read_after_collect_witness :
    readMetaFile
        (collectAllMeta (fun r c => "OUT:" ++ r ++ ":" ++ joinSpace c)
          (fun _ => true) 200 ["sglang"] [])
        "sglang" "status.txt"
      = Except.ok ("OUT:sglang:" ++
          joinSpace (fullCmd 200 "status.txt" ["git", "-c", "color.status=always", "status"])) :=
  (c3_read_after_collect (fun r c => "OUT:" ++ r ++ ":" ++ joinSpace c)
      (fun _ => true) 200 ["sglang"] "sglang" "status.txt"
      ["git", "-c", "color.status=always", "status"] []).1
    (by decide) rfl (by decide)

/-- C4 counterexample: the all-branches/graph history capture is NOT
unlimited: with the default limit the built command for log_all.txt
carries the entry-count cap -200, because the filename also starts with
the characters log. -/
theorem c4_counterexample :
    ("-" ++ toString 200) ∈
      fullCmd 200 "log_all.txt"
        ["git", "log", "--all", "--graph", "--color=always",
          "--pretty=format:" ++ gitLogFormat]
    ∧ ("log_all.txt", ["git", "log", "--all", "--graph", "--color=always",
          "--pretty=format:" ++ gitLogFormat]) ∈ GIT_COMMANDS := by
  constructor
  · have hs : strStartsWith "log_all.txt" "log" = true := by decide
    simp [fullCmd, hs]
  · simp [GIT_COMMANDS]

/-- C4 amended: the entry-count limit (configurable, default 200) is
applied to BOTH history captures, log.txt and log_all.txt, since the flag
is appended whenever the capture filename starts with log; the four
non-history captures get no limit flag. -/
theorem c4_amended (limit : Nat) (fn : String) (cmd : List String) :
    ((fn = "log.txt" ∨ fn = "log_all.txt") →
      fullCmd limit fn cmd = cmd ++ ["-" ++ toString limit])
    ∧ (fn ∈ ["status.txt", "branch.txt", "diff_stat.txt", "diff.txt"] →
      fullCmd limit fn cmd = cmd)
    ∧ defaultLogLimit = 200 := by
  refine ⟨?_, ?_, rfl⟩
  · rintro (rfl | rfl) <;> simp [fullCmd] <;> decide
  · intro h
    simp only [List.mem_cons, List.not_mem_nil, or_false] at h
    rcases h with rfl | rfl | rfl | rfl <;> simp [fullCmd] <;> decide

theorem c4_amended_witness :
    fullCmd 200 "log.txt" ["git", "log"] = ["git", "log", "-" ++ toString 200] :=
  (c4_amended 200 "log.txt" ["git", "log"]).1 (Or.inl rfl)

/-! ## Worktree map round-trip lemmas (C6) -/

theorem optMapAll_map (f : α → β) (g : β → Option α) (l : List α)
    (h : ∀ a ∈ l, g (f a) = some a) : optMapAll (l.map f) g = some l := by
  induction l with
  | nil => rfl
  | cons a rest ih =>
    simp only [List.map_cons, optMapAll]
    rw [h a (List.mem_cons_self a rest)]
    rw [ih (fun x hx => h x (List.mem_cons_of_mem a hx))]
    rfl

theorem decodeEntry_encode (e : RawEntry) : decodeEntry (encodeEntry e) = some e := by
  unfold decodeEntry encodeEntry
  have := optMapAll_map (fun p : String × String => (p.1, JVal.jstr p.2))
    decodeField e (fun a _ => rfl)
  simpa using this

theorem decodeRepoEntry_encode (k : String) (es : List RawEntry) :
    decodeRepoEntry (k, JVal.jarr (es.map encodeEntry)) = some (k, es) := by
  show (optMapAll (es.map encodeEntry) decodeEntry).map (fun es2 => (k, es2))
    = some (k, es)
  rw [optMapAll_map encodeEntry decodeEntry es (fun a _ => decodeEntry_encode a)]
  rfl

theorem decodeWtMap_encode (m : WtMap) : decodeWtMap (encodeWtMap m) = some m := by
  unfold decodeWtMap encodeWtMap
  have := optMapAll_map
    (fun p : String × List RawEntry => (p.1, JVal.jarr (p.2.map encodeEntry)))
    decodeRepoEntry m (fun a _ => decodeRepoEntry_encode a.1 a.2)
  simpa using this

/-- C6 counterexample: the round trip fails for the empty WorktreeMap
claimed by the universal quantification, on a cache that holds a
worktrees.json from a prior run: _write_worktree_map returns without
writing when the discovered map is empty, so the stale file survives
and read_worktree_map returns its old non-empty content instead of a
mapping identical to the (empty) one current during collection. -/
theorem c6_counterexample :
    readWtMapFile
        (writeWtMapFile []
          (some (encodeWtMap [("sglang", [[("name", "old_wt")]])])))
      = some [("sglang", [[("name", "old_wt")]])]
    ∧ ¬ readWtMapFile
        (writeWtMapFile []
          (some (encodeWtMap [("sglang", [[("name", "old_wt")]])])))
      = some ([] : WtMap) :=
  ⟨by decide, by decide⟩

/-- C6 amended: a NON-EMPTY worktree map written during collection reads
back identical, with repository order and entry order preserved (both
are ordered lists and the decoder rebuilds them positionally),
regardless of what the cache held before; when the map file is absent
the reader returns the empty mapping.  An empty map, however, is never
written: _write_worktree_map returns early, leaving whatever
worktrees.json the cache already held to be read back unchanged. -/
theorem c6_wtmap_roundtrip (file : Option JVal) (m : WtMap) :
    (m ≠ [] → readWtMapFile (writeWtMapFile m file) = some m)
    ∧ (file = none → readWtMapFile file = some [])
    ∧ (m = [] → readWtMapFile (writeWtMapFile m file) = readWtMapFile file) := by
  refine ⟨?_, ?_, ?_⟩
  · intro hne
    unfold writeWtMapFile
    rw [if_neg hne]
    unfold readWtMapFile
    exact decodeWtMap_encode m
  · intro h
    subst h
    rfl
  · intro h
    subst h
    rfl

theorem c6_wtmap_roundtrip_witness :
    readWtMapFile
        (writeWtMapFile
          [("sglang", [[("name", "wt1"), ("head", "abcdef12"), ("branch", "dev")]])]
          none)
      = some [("sglang", [[("name", "wt1"), ("head", "abcdef12"), ("branch", "dev")]])] :=
  (c6_wtmap_roundtrip none
      [("sglang", [[("name", "wt1"), ("head", "abcdef12"), ("branch", "dev")]])]).1
    (by decide)

/-! ## Worktree discovery lemmas (C7) -/

theorem filterExisting_ok (dirExists : String → Bool) (l r : List RawEntry)
    (h : filterExisting dirExists l = Except.ok r) :
    ∀ e ∈ r, ∃ n, lookupKey e "name" = some n ∧ dirExists n = true := by
  induction l generalizing r with
  | nil =>
    simp only [filterExisting] at h
    cases h
    intro e he
    cases he
  | cons e0 rest ih =>
    simp only [filterExisting] at h
    cases hn : lookupKey e0 "name" with
    | none => rw [hn] at h; cases h
    | some n =>
      rw [hn] at h
      cases hr : filterExisting dirExists rest with
      | error m => rw [hr] at h; cases h
      | ok r0 =>
        rw [hr] at h
        cases h
        intro e he
        by_cases hd : dirExists n = true
        · rw [if_pos hd] at he
          rcases List.mem_cons.mp he with rfl | he0
          · exact ⟨n, hn, hd⟩
          · exact ih r0 hr e he0
        · rw [if_neg hd] at he
          exact ih r0 hr e he

/-- C7: whenever discovery succeeds, every returned worktree entry names
a directory that exists under the sync root and every listed repository
keeps at least one entry; and in the concrete scenario of one repository
whose single worktree entry points to a deleted directory, discovery
returns the empty mapping (stale entries are dropped, not errored). -/
theorem c7_discover_filters :
    (∀ (baseDirs : List String) (isGit : String → Bool)
        (porcelain : String → List String) (dirExists : String → Bool)
        (m : WtMap),
      discoverWtMap baseDirs isGit porcelain dirExists = Except.ok m →
      ∀ pr ∈ m, pr.2 ≠ [] ∧
        ∀ e ∈ pr.2, ∃ n, lookupKey e "name" = some n ∧ dirExists n = true)
    ∧ discoverWtMap ["sglang"] (fun _ => true)
        (fun _ => ["worktree /home/u/common_sync/wt1",
          "HEAD abcdef1234567", "branch refs/heads/dev"])
        (fun _ => false)
      = Except.ok [] := by
  constructor
  · intro baseDirs isGit porcelain dirExists m hok pr hpr
    -- generalize over the fold accumulator
    suffices h : ∀ (bds : List String) (acc : Except String WtMap) (m : WtMap),
        (∀ m0 : WtMap, acc = Except.ok m0 →
          ∀ pr2 ∈ m0, pr2.2 ≠ [] ∧
            ∀ e ∈ pr2.2, ∃ n, lookupKey e "name" = some n ∧ dirExists n = true) →
        bds.foldl
            (fun acc2 repo =>
              match acc2 with
              | Except.error msg => Except.error msg
              | Except.ok m2 =>
                if isGit repo then
                  match filterExisting dirExists (parseWorktrees (porcelain repo)) with
                  | Except.error e => Except.error e
                  | Except.ok entries =>
                    Except.ok (if entries = [] then m2 else m2 ++ [(repo, entries)])
                else Except.ok m2) acc
          = Except.ok m →
        ∀ pr2 ∈ m, pr2.2 ≠ [] ∧
          ∀ e ∈ pr2.2, ∃ n, lookupKey e "name" = some n ∧ dirExists n = true by
      refine h baseDirs (Except.ok []) m ?_ hok pr hpr
      intro m0 h0 pr2 hpr2
      cases h0
      cases hpr2
    intro bds
    induction bds with
    | nil =>
      intro acc m hacc hfold
      simp only [List.foldl_nil] at hfold
      exact hacc m hfold
    | cons repo rest ih =>
      intro acc m hacc hfold
      simp only [List.foldl_cons] at hfold
      refine ih _ m ?_ hfold
      intro m0 h0
      cases acc with
      | error msg => cases h0
      | ok m2 =>
        simp only at h0
        by_cases hg : isGit repo = true
        · rw [if_pos hg] at h0
          cases hfe : filterExisting dirExists (parseWorktrees (porcelain repo)) with
          | error e => rw [hfe] at h0; cases h0
          | ok entries =>
            rw [hfe] at h0
            simp only [Except.ok.injEq] at h0
            subst h0
            by_cases hent : entries = []
            · rw [if_pos hent]
              exact hacc m2 rfl
            · rw [if_neg hent]
              intro pr2 hpr2
              rcases List.mem_append.mp hpr2 with hin | hin
              · exact hacc m2 rfl pr2 hin
              · rcases List.mem_singleton.mp hin with rfl
                exact ⟨hent, filterExisting_ok dirExists _ entries hfe⟩
        · rw [if_neg hg] at h0
          simp only [Except.ok.injEq] at h0
          subst h0
          exact hacc m2 rfl
  · rfl

theorem c7_discover_filters_witness :
    ∃ n, lookupKey [("name", "wt1"), ("head", "abcdef12"), ("branch", "dev")]
        "name" = some n ∧ (fun _ : String => true) n = true :=
  (c7_discover_filters.1 ["sglang"] (fun _ => true)
      (fun _ => ["worktree /home/u/common_sync/wt1",
        "HEAD abcdef1234567", "branch refs/heads/dev"])
      (fun _ => true)
      [("sglang", [[("name", "wt1"), ("head", "abcdef12"), ("branch", "dev")]])]
      (by rfl)
      ("sglang", [[("name", "wt1"), ("head", "abcdef12"), ("branch", "dev")]])
      (by decide)).2
    [("name", "wt1"), ("head", "abcdef12"), ("branch", "dev")] (by decide)

/-! ## Context-manager lemmas (C8, C10) -/

theorem drop_last_two (l : List Ev) (a b : Ev) :
    (l ++ [a, b]).drop ((l ++ [a, b]).length - 2) = [a, b] := by
  have h : (l ++ [a, b]).length - 2 = l.length := by
    simp
  rw [h]
  exact List.drop_left l [a, b]

/-- C8: entering the progress-canvas context emits hide-cursor first, and
on every exit path, whether the body completes, raises a caught
Exception, or raises an uncatchable BaseException, the final two events
are show-cursor and the terminating newline. -/
theorem c8_cursor_restored (maxLines : Nat) (desc : String)
    (body : List Ev × Option Exn) :
    (uiToolCtx maxLines desc body).1.head? = some Ev.hideCur
    ∧ (uiToolCtx maxLines desc body).1.drop
        ((uiToolCtx maxLines desc body).1.length - 2)
      = [Ev.showCur, Ev.out "\n"] := by
  obtain ⟨evs, exn⟩ := body
  cases exn with
  | none =>
    exact ⟨rfl, drop_last_two (Ev.hideCur :: (setupEvents maxLines desc ++ evs)) _ _⟩
  | some e =>
    obtain ⟨msg, iexc⟩ := e
    cases iexc with
    | false =>
      exact ⟨rfl, drop_last_two (Ev.hideCur :: (setupEvents maxLines desc ++ evs)) _ _⟩
    | true =>
      exact ⟨rfl, drop_last_two
        (Ev.hideCur :: ((setupEvents maxLines desc ++ evs) ++ [Ev.out (msg ++ "\n")])) _ _⟩

/-- C10 counterexample: an exception outside the Exception hierarchy,
such as KeyboardInterrupt, raised inside the context body is NOT
swallowed: it propagates out of the with-block, so the claim that any
exception is caught and never observable fails at this input. -/
theorem c10_counterexample :
    (uiToolCtx 3 "Rsync" ([], some { msg := "KeyboardInterrupt", isException := false })).2
      = some { msg := "KeyboardInterrupt", isException := false } := by
  rfl

/-- C10 amended: an exception of class Exception raised inside the body
is caught by the except clause, printed, and not re-raised, so control
returns normally; an exception outside the Exception hierarchy (such as
KeyboardInterrupt or SystemExit) is re-raised to the caller after the
finally block restores the cursor. -/
theorem c10_amended (maxLines : Nat) (desc : String) (evs : List Ev) (e : Exn) :
    (e.isException = true →
      (uiToolCtx maxLines desc (evs, some e)).2 = none
      ∧ Ev.out (e.msg ++ "\n") ∈ (uiToolCtx maxLines desc (evs, some e)).1)
    ∧ (e.isException = false →
      (uiToolCtx maxLines desc (evs, some e)).2 = some e) := by
  constructor
  · intro he
    constructor
    · simp [uiToolCtx, tryExceptFinally, he]
    · simp [uiToolCtx, tryExceptFinally, he]
  · intro he
    simp [uiToolCtx, tryExceptFinally, he]

theorem c10_amended_witness :
    (uiToolCtx 2 "Rsync" ([], some { msg := "boom", isException := true })).2 = none :=
  ((c10_amended 2 "Rsync" [] { msg := "boom", isException := true }).1 rfl).1

/-! ## Polling loop lemmas (C5) -/

theorem deliveredTo_append (i : Nat) (a b : List (Nat × Char)) :
    deliveredTo i (a ++ b) = deliveredTo i a ++ deliveredTo i b := by
  simp [deliveredTo]

theorem deliveredTo_passFrom_lt (j k : Nat) (ss : List (List Char)) (h : j < k) :
    deliveredTo j (passDeliverFrom k ss) = [] := by
  induction ss generalizing k with
  | nil => rfl
  | cons s rest ih =>
    simp only [passDeliverFrom, deliveredTo_append]
    rw [ih (k + 1) (Nat.lt_succ_of_lt h)]
    cases s with
    | nil => rfl
    | cons c cs =>
      simp only [List.head?, deliveredTo, List.filterMap]
      rw [if_neg (by omega)]
      rfl

theorem deliveredTo_passFrom (k i : Nat) (ss : List (List Char)) :
    deliveredTo (k + i) (passDeliverFrom k ss) = ((ss.getD i []).head?).toList := by
  induction ss generalizing k i with
  | nil =>
    simp [passDeliverFrom, deliveredTo, List.getD]
  | cons s rest ih =>
    cases i with
    | zero =>
      simp only [passDeliverFrom, deliveredTo_append, Nat.add_zero]
      rw [deliveredTo_passFrom_lt k (k + 1) rest (Nat.lt_succ_self k)]
      cases s with
      | nil => rfl
      | cons c cs => simp [deliveredTo, List.getD]
    | succ i2 =>
      simp only [passDeliverFrom, deliveredTo_append]
      have h1 : deliveredTo (k + (i2 + 1))
          (match s.head? with
            | some c => [(k, c)]
            | none => []) = [] := by
        cases s with
        | nil => rfl
        | cons c cs =>
          simp only [List.head?, deliveredTo, List.filterMap]
          have hne : ¬ k = k + (i2 + 1) := by omega
          simp [hne]
      rw [h1]
      have h2 : k + (i2 + 1) = (k + 1) + i2 := by omega
      rw [h2, ih (k + 1) i2]
      rfl

theorem totalLen_getD_nil (ss : List (List Char)) (i : Nat) (h : totalLen ss = 0) :
    ss.getD i [] = [] := by
  induction ss generalizing i with
  | nil => cases i <;> rfl
  | cons s rest ih =>
    simp only [totalLen, List.map_cons, List.sum_cons] at h
    cases i with
    | zero =>
      have : s.length = 0 := by omega
      simpa [List.getD] using List.length_eq_zero.mp this
    | succ i2 =>
      exact ih i2 (by simp [totalLen]; omega)

theorem allEmpty_getD_nil (ss : List (List Char)) (i : Nat)
    (h : ss.all List.isEmpty = true) : ss.getD i [] = [] := by
  induction ss generalizing i with
  | nil => cases i <;> rfl
  | cons s rest ih =>
    simp only [List.all_cons, Bool.and_eq_true] at h
    cases i with
    | zero =>
      have := List.isEmpty_iff.mp h.1
      simpa [List.getD] using this
    | succ i2 => exact ih i2 h.2

theorem totalLen_passAdvance_le (ss : List (List Char)) :
    totalLen (passAdvance ss) ≤ totalLen ss := by
  induction ss with
  | nil => exact Nat.le_refl 0
  | cons s rest ih =>
    simp only [passAdvance, totalLen, List.map_cons, List.sum_cons] at *
    have : (s.drop 1).length ≤ s.length := by
      rw [List.length_drop]
      omega
    omega

theorem totalLen_passAdvance_lt (ss : List (List Char))
    (h : ¬ ss.all List.isEmpty = true) : totalLen (passAdvance ss) < totalLen ss := by
  induction ss with
  | nil => simp at h
  | cons s rest ih =>
    simp only [List.all_cons, Bool.and_eq_true] at h
    push_neg at h
    simp only [passAdvance, totalLen, List.map_cons, List.sum_cons]
    cases s with
    | nil =>
      have hrest : ¬ rest.all List.isEmpty = true := by
        intro hc
        exact absurd (h (by rfl)) (by simp [hc])
      have := ih hrest
      simp only [passAdvance, totalLen] at this
      simpa using this
    | cons c cs =>
      have hle := totalLen_passAdvance_le rest
      simp only [passAdvance, totalLen] at hle
      simp only [List.drop_succ_cons, List.drop_zero, List.length_cons]
      omega

theorem getD_passAdvance (ss : List (List Char)) (i : Nat) :
    (passAdvance ss).getD i [] = (ss.getD i []).drop 1 := by
  induction ss generalizing i with
  | nil => cases i <;> rfl
  | cons s rest ih =>
    cases i with
    | zero => rfl
    | succ i2 => exact ih i2

theorem pollLoopAux_delivers (n : Nat) :
    ∀ (ss : List (List Char)) (i : Nat), totalLen ss ≤ n →
      deliveredTo i (pollLoopAux n ss) = ss.getD i [] := by
  induction n with
  | zero =>
    intro ss i h
    rw [totalLen_getD_nil ss i (Nat.le_zero.mp h)]
    rfl
  | succ n2 ih =>
    intro ss i h
    simp only [pollLoopAux]
    by_cases hall : ss.all List.isEmpty = true
    · rw [if_pos hall, allEmpty_getD_nil ss i hall]
      rfl
    · rw [if_neg hall, deliveredTo_append]
      have hlt := totalLen_passAdvance_lt ss hall
      rw [ih (passAdvance ss) i (by omega)]
      have h0 : deliveredTo i (passDeliverFrom 0 ss) = ((ss.getD i []).head?).toList := by
        have := deliveredTo_passFrom 0 i ss
        simpa using this
      rw [h0, getD_passAdvance]
      cases ss.getD i [] with
      | nil => rfl
      | cons c cs => simp

/-- C5: a failing transfer is reported, not propagated.  For any list of
spawned transfers: every process with a non-zero exit code has its
command line and captured standard error printed in the watcher reports;
the polling loop keeps delivering until every stream is drained, so each
screen line receives the complete output of its process regardless of
any sibling failure; and the orchestrator exit code is 0 no matter the
transfer return codes, since sync() never inspects them and the watcher
RuntimeError dies on its own unjoined thread. -/
theorem c5_failure_not_propagated (procs : List ProcSpec) :
    (∀ p ∈ procs, ¬ p.retcode = 0 →
      redBlockS (joinSpace p.cmd) ∈ (runSyncProcs procs).reports
      ∧ redTextS p.stderrOut ∈ (runSyncProcs procs).reports)
    ∧ (∀ i, deliveredTo i (runSyncProcs procs).uiChars
        = ((procs.map (fun p => p.output)).getD i []))
    ∧ (runSyncProcs procs).exitCode = 0 := by
  refine ⟨?_, ?_, rfl⟩
  · intro p hp hret
    have hrep : watcherReport true p
        = [redBlockS (joinSpace p.cmd), redTextS p.stderrOut] := by
      unfold watcherReport
      rw [if_pos]
      simp only [Bool.not_true, Bool.false_or]
      simpa using hret
    have hmem : watcherReport true p ∈ procs.map (fun p2 => watcherReport true p2) :=
      List.mem_map.mpr ⟨p, hp, rfl⟩
    constructor
    · exact List.mem_flatten.mpr ⟨watcherReport true p, hmem, by rw [hrep]; simp⟩
    · exact List.mem_flatten.mpr ⟨watcherReport true p, hmem, by rw [hrep]; simp⟩
  · intro i
    exact pollLoopAux_delivers (totalLen (procs.map (fun p => p.output)))
      (procs.map (fun p => p.output)) i (Nat.le_refl _)

theorem c5_failure_not_propagated_witness :
    redBlockS (joinSpace ["rsync", "x"]) ∈
      (runSyncProcs
        [{ cmd := ["rsync", "x"], stderrOut := "boom", retcode := 1,
           output := ['a'] }]).reports :=
  ((c5_failure_not_propagated
      [{ cmd := ["rsync", "x"], stderrOut := "boom", retcode := 1,
         output := ['a'] }]).1
    { cmd := ["rsync", "x"], stderrOut := "boom", retcode := 1, output := ['a'] }
    (by decide) (by decide)).1

/-! ## Path normalization lemmas (C1, C9)

The planner builds the destination string host:BASE/NAME/ and the
renderer parses it back through Path and strips trailing separators;
these lemmas compute that round trip for well-formed components. -/

theorem splitSlash_ne_nil (cs : List Char) : splitSlash cs ≠ [] := by
  cases cs with
  | nil => simp [splitSlash]
  | cons c rest =>
    simp only [splitSlash]
    by_cases h : c = '/'
    · rw [if_pos h]
      simp
    · rw [if_neg h]
      cases hs : splitSlash rest <;> simp

theorem headI_cons_tail (l : List (List Char)) (h : l ≠ []) :
    l.headI :: l.tail = l := by
  cases l with
  | nil => exact absurd rfl h
  | cons a rest => rfl

theorem splitSlash_append_noSlash (a b : List Char) (h : '/' ∉ a) :
    splitSlash (a ++ b) = (a ++ (splitSlash b).headI) :: (splitSlash b).tail := by
  induction a with
  | nil =>
    simp only [List.nil_append]
    exact (headI_cons_tail (splitSlash b) (splitSlash_ne_nil b)).symm
  | cons c rest ih =>
    simp only [List.mem_cons] at h
    push_neg at h
    have hc : ¬ c = '/' := fun hc => h.1 hc.symm
    simp only [List.cons_append, splitSlash, if_neg hc, List.append_eq]
    rw [ih h.2]

theorem splitSlash_noSlash (a : List Char) (h : '/' ∉ a) :
    splitSlash a = [a] := by
  have := splitSlash_append_noSlash a [] h
  simpa [splitSlash] using this

theorem splitSlash_concat_slash (a : List Char) :
    splitSlash (a ++ ['/']) = splitSlash a ++ [[]] := by
  induction a with
  | nil => rfl
  | cons c rest ih =>
    simp only [List.cons_append, splitSlash, List.append_eq]
    by_cases hc : c = '/'
    · rw [if_pos hc, if_pos hc, ih]
      rfl
    · rw [if_neg hc, if_neg hc, ih]
      cases hs : splitSlash rest with
      | nil => exact absurd hs (splitSlash_ne_nil rest)
      | cons h0 t0 => rfl

theorem splitSlash_icChars (L : List (List Char)) (hL : L ≠ [])
    (h : ∀ x ∈ L, '/' ∉ x) : splitSlash (icChars L) = L := by
  induction L with
  | nil => exact absurd rfl hL
  | cons x rest ih =>
    cases rest with
    | nil =>
      simp only [icChars]
      exact splitSlash_noSlash x (h x (List.mem_cons_self x []))
    | cons y rest2 =>
      simp only [icChars]
      rw [splitSlash_append_noSlash x ('/' :: icChars (y :: rest2))
        (h x (List.mem_cons_self x (y :: rest2)))]
      have hrest : splitSlash ('/' :: icChars (y :: rest2))
          = [] :: splitSlash (icChars (y :: rest2)) := by
        simp [splitSlash]
      rw [hrest, ih (by simp) (fun z hz => h z (List.mem_cons_of_mem x hz))]
      simp

theorem mem_splitSlash_noSlash (cs : List Char) :
    ∀ x ∈ splitSlash cs, '/' ∉ x := by
  induction cs with
  | nil =>
    intro x hx
    simp only [splitSlash, List.mem_singleton] at hx
    subst hx
    simp
  | cons c rest ih =>
    intro x hx
    simp only [splitSlash] at hx
    by_cases hc : c = '/'
    · rw [if_pos hc] at hx
      rcases List.mem_cons.mp hx with rfl | hx2
      · simp
      · exact ih x hx2
    · rw [if_neg hc] at hx
      cases hs : splitSlash rest with
      | nil => exact absurd hs (splitSlash_ne_nil rest)
      | cons h0 t0 =>
        rw [hs] at hx
        rcases List.mem_cons.mp hx with rfl | hx2
        · intro hmem
          rcases List.mem_cons.mp hmem with h1 | h2
          · exact hc h1.symm
          · exact ih h0 (by rw [hs]; exact List.mem_cons_self h0 t0) h2
        · exact ih x (by rw [hs]; exact List.mem_cons_of_mem h0 hx2)

theorem strData_append (s t : String) : (s ++ t).data = s.data ++ t.data := by
  cases s
  cases t
  rfl

theorem strMk_data (s : String) : String.mk s.data = s := by
  cases s
  rfl

theorem strMk_eq_empty_iff (cs : List Char) : String.mk cs = "" ↔ cs = [] := by
  constructor
  · intro h
    have := congrArg String.data h
    simpa using this
  · intro h
    rw [h]

theorem parseComps_wf (cs : List Char) :
    ∀ x ∈ parseComps cs, '/' ∉ x.data ∧ x.data ≠ [] ∧ x.data ≠ ['.'] := by
  intro x hx
  unfold parseComps at hx
  rcases List.mem_filterMap.mp hx with ⟨c, hc, hkeep⟩
  unfold keepComp at hkeep
  by_cases hdrop : c = [] ∨ c = ['.']
  · rw [if_pos hdrop] at hkeep
    cases hkeep
  · rw [if_neg hdrop] at hkeep
    push_neg at hdrop
    cases hkeep
    exact ⟨mem_splitSlash_noSlash cs c hc, hdrop.1, hdrop.2⟩

theorem parsePath_singleton (s : String) (h1 : '/' ∉ s.data)
    (h2 : s.data ≠ []) (h3 : s.data ≠ ['.']) :
    parsePath s = { abs := false, comps := [s] } := by
  unfold parsePath
  have habs : startsSlash s.data = false := by
    cases hd : s.data with
    | nil => rfl
    | cons c rest =>
      have hc : c ≠ '/' := by
        intro hc
        apply h1
        rw [hd, hc]
        exact List.mem_cons_self '/' rest
      simp [startsSlash, hc]
  rw [habs]
  unfold parseComps
  rw [splitSlash_noSlash s.data h1]
  simp only [List.filterMap]
  unfold keepComp
  rw [if_neg (by push_neg; exact ⟨h2, h3⟩)]

theorem icChars_ne_nil (L : List (List Char)) (hL : L ≠ [])
    (h : ∀ x ∈ L, x ≠ []) : icChars L ≠ [] := by
  cases L with
  | nil => exact absurd rfl hL
  | cons x rest =>
    cases rest with
    | nil => exact h x (List.mem_cons_self x [])
    | cons y rest2 =>
      simp only [icChars]
      intro hc
      exact h x (List.mem_cons_self x (y :: rest2)) (List.append_eq_nil.mp hc).1

theorem icChars_getLast_ne_slash (L : List (List Char)) (hL : L ≠ [])
    (h : ∀ x ∈ L, x ≠ [] ∧ '/' ∉ x) :
    ∀ c, (icChars L).getLast? = some c → c ≠ '/' := by
  induction L with
  | nil => exact absurd rfl hL
  | cons x rest ih =>
    cases rest with
    | nil =>
      intro c hc
      simp only [icChars] at hc
      have hx := h x (List.mem_cons_self x [])
      have hmem : c ∈ x := by
        rcases List.mem_getLast?_eq_getLast (l := x) (x := c)
          (by rw [Option.mem_def]; exact hc) with ⟨hxx, rfl⟩
        exact List.getLast_mem hxx
      intro hceq
      subst hceq
      exact hx.2 hmem
    | cons y rest2 =>
      intro c hc
      simp only [icChars] at hc
      have hne : icChars (y :: rest2) ≠ [] :=
        icChars_ne_nil (y :: rest2) (by simp)
          (fun z hz => (h z (List.mem_cons_of_mem x hz)).1)
      rw [List.getLast?_append_cons] at hc
      have hc2 : (icChars (y :: rest2)).getLast? = some c := by
        cases hic : icChars (y :: rest2) with
        | nil => exact absurd hic hne
        | cons z zs =>
          rw [hic] at hc
          rw [List.getLast?_cons_cons] at hc
          exact hc
      exact ih (by simp) (fun z hz => h z (List.mem_cons_of_mem x hz)) c hc2

theorem strEq_of_data (s t : String) (h : s.data = t.data) : s = t := by
  cases s
  cases t
  cases h
  rfl

theorem filterMap_some_eq (l : List α) (f : α → Option α)
    (h : ∀ a ∈ l, f a = some a) : l.filterMap f = l := by
  induction l with
  | nil => rfl
  | cons a rest ih =>
    rw [List.filterMap_cons, h a (List.mem_cons_self a rest),
      ih (fun x hx => h x (List.mem_cons_of_mem a hx))]

theorem keepComp_data (s : String) (h2 : s.data ≠ []) (h3 : s.data ≠ ['.']) :
    keepComp s.data = some s := by
  unfold keepComp
  rw [if_neg (by push_neg; exact ⟨h2, h3⟩)]

theorem rstripSlashL_eq (cs : List Char)
    (h : ∀ c, cs.getLast? = some c → c ≠ '/') : rstripSlashL cs = cs := by
  unfold rstripSlashL
  cases hrev : cs.reverse with
  | nil =>
    simpa using (List.reverse_eq_nil_iff.mp hrev).symm
  | cons c rest =>
    have hlast : cs.getLast? = some c := by
      rw [← List.head?_reverse, hrev]
      rfl
    have hc := h c hlast
    rw [List.dropWhile_cons]
    rw [if_neg (by simpa using hc)]
    rw [← hrev, List.reverse_reverse]

/-- The destination round trip of _sync_command: the string
host:BASE/NAME/ built by SyncTool.sync comes back from Path parsing and
rstrip with exactly the trailing separator removed. -/
theorem destRoundTrip (host : String) (R : PPath)
    (hhost : '/' ∉ host.data) (habs : R.abs = true) (hne : R.comps ≠ [])
    (hwf : ∀ x ∈ R.comps, '/' ∉ x.data ∧ x.data ≠ [] ∧ x.data ≠ ['.']) :
    rstripSlash (asPosix (parsePath (host ++ ":" ++ asPosix R ++ "/")))
      = host ++ ":" ++ asPosix R := by
  have hcne : R.comps.map String.data ≠ [] := by
    simpa using hne
  have hcwf1 : ∀ x ∈ R.comps.map String.data, '/' ∉ x := by
    intro x hx
    rcases List.mem_map.mp hx with ⟨s, hs, rfl⟩
    exact (hwf s hs).1
  have hcwf2 : ∀ x ∈ R.comps.map String.data, x ≠ [] := by
    intro x hx
    rcases List.mem_map.mp hx with ⟨s, hs, rfl⟩
    exact (hwf s hs).2.1
  have hRpos : asPosix R = String.mk ('/' :: icChars (R.comps.map String.data)) := by
    simp [asPosix, hne, habs]
  have hAne : host.data ++ [':'] ≠ [] := by simp
  have hAdot : host.data ++ [':'] ≠ ['.'] := by
    intro hc
    have := congrArg List.getLast? hc
    rw [List.getLast?_concat] at this
    simp at this
  have hA : '/' ∉ host.data ++ [':'] := by
    intro hmem
    rcases List.mem_append.mp hmem with h | h
    · exact hhost h
    · simp at h
  have hSdata : (host ++ ":" ++ asPosix R ++ "/").data
      = (host.data ++ [':']) ++ ('/' :: (icChars (R.comps.map String.data) ++ ['/'])) := by
    rw [hRpos, strData_append, strData_append, strData_append]
    simp
  have hsplit : splitSlash
        ((host.data ++ [':']) ++ ('/' :: (icChars (R.comps.map String.data) ++ ['/'])))
      = (host.data ++ [':']) :: (R.comps.map String.data ++ [[]]) := by
    rw [splitSlash_append_noSlash _ _ hA]
    have h2 : splitSlash (icChars (R.comps.map String.data) ++ ['/'])
        = R.comps.map String.data ++ [[]] := by
      rw [splitSlash_concat_slash, splitSlash_icChars _ hcne hcwf1]
    have h1 : splitSlash ('/' :: (icChars (R.comps.map String.data) ++ ['/']))
        = [] :: (R.comps.map String.data ++ [[]]) := by
      simp [splitSlash, h2]
    rw [h1]
    simp
  have hpc : parseComps
        ((host.data ++ [':']) ++ ('/' :: (icChars (R.comps.map String.data) ++ ['/'])))
      = String.mk (host.data ++ [':']) :: R.comps := by
    unfold parseComps
    rw [hsplit, List.filterMap_cons]
    have hk : keepComp (host.data ++ [':']) = some (String.mk (host.data ++ [':'])) := by
      unfold keepComp
      rw [if_neg (by push_neg; exact ⟨hAne, hAdot⟩)]
    rw [hk]
    have hrest : List.filterMap keepComp (R.comps.map String.data ++ [[]]) = R.comps := by
      rw [List.filterMap_append]
      have hnil : List.filterMap keepComp [([] : List Char)] = [] := by
        simp [keepComp]
      rw [hnil, List.append_nil, List.filterMap_map]
      refine filterMap_some_eq R.comps (keepComp ∘ String.data) ?_
      intro a ha
      exact keepComp_data a (hwf a ha).2.1 (hwf a ha).2.2
    rw [hrest]
  have habsS : startsSlash
        ((host.data ++ [':']) ++ ('/' :: (icChars (R.comps.map String.data) ++ ['/'])))
      = false := by
    cases hh : host.data with
    | nil => rfl
    | cons c rest =>
      have hc : c ≠ '/' := by
        intro hc
        apply hhost
        rw [hh, hc]
        exact List.mem_cons_self '/' rest
      simp [startsSlash, hc]
  have hparse : parsePath (host ++ ":" ++ asPosix R ++ "/")
      = { abs := false, comps := String.mk (host.data ++ [':']) :: R.comps } := by
    unfold parsePath
    rw [hSdata, habsS, hpc]
  have hmapback : (String.mk (host.data ++ [':']) :: R.comps).map String.data
      = (host.data ++ [':']) :: R.comps.map String.data := by
    simp
  have hfinal : asPosix { abs := false, comps := String.mk (host.data ++ [':']) :: R.comps }
      = String.mk ((host.data ++ [':'])
          ++ ('/' :: icChars (R.comps.map String.data))) := by
    unfold asPosix
    rw [if_neg (by simp)]
    simp only [hmapback]
    cases hc : R.comps.map String.data with
    | nil => exact absurd hc hcne
    | cons c1 crest =>
      simp [icChars]
  have htarget : host ++ ":" ++ asPosix R
      = String.mk ((host.data ++ [':'])
          ++ ('/' :: icChars (R.comps.map String.data))) := by
    apply strEq_of_data
    rw [hRpos, strData_append, strData_append]
  have hlastS : ∀ c,
      ((host.data ++ [':'])
          ++ ('/' :: icChars (R.comps.map String.data))).getLast? = some c →
      c ≠ '/' := by
    intro c hc
    rw [List.getLast?_append_cons] at hc
    have hicne : icChars (R.comps.map String.data) ≠ [] :=
      icChars_ne_nil _ hcne hcwf2
    cases hic : icChars (R.comps.map String.data) with
    | nil => exact absurd hic hicne
    | cons z zs =>
      rw [hic, List.getLast?_cons_cons] at hc
      refine icChars_getLast_ne_slash _ hcne
        (fun x hx => ⟨hcwf2 x hx, hcwf1 x hx⟩) c ?_
      rw [hic]
      exact hc
  rw [hparse, hfinal, htarget]
  unfold rstripSlash
  rw [show (String.mk ((host.data ++ [':'])
      ++ ('/' :: icChars (R.comps.map String.data)))).data
    = (host.data ++ [':']) ++ ('/' :: icChars (R.comps.map String.data)) from rfl]
  rw [rstripSlashL_eq _ hlastS]

theorem filter_append_singleton_getLast (l : List String) (x : String)
    (hx : ¬ x = "") :
    ((l ++ [x]).filter (fun s => !(s == ""))).getLast? = some x := by
  rw [List.filter_append]
  have hb : (x == "") = false := by simpa using hx
  have h1 : List.filter (fun s => !(s == "")) [x] = [x] := by
    simp [List.filter, hb]
  rw [h1, List.getLast?_concat]

theorem getD_mem_of_lt (l : List String) (i : Nat) (d : String)
    (h : i < l.length) : l.getD i d ∈ l := by
  rw [List.getD_eq_getElem?_getD]
  cases hg : l[i]? with
  | none =>
    rw [List.getElem?_eq_none_iff] at hg
    omega
  | some a =>
    simp only [Option.getD_some]
    exact List.getElem?_mem hg

theorem getLastD_mem (l : List String) (d : String) (h : l ≠ []) :
    l.getLastD d ∈ l := by
  rw [List.getLastD_eq_getLast?]
  cases hl : l.getLast? with
  | none => exact absurd (List.getLast?_eq_none_iff.mp hl) h
  | some a =>
    simp only [Option.getD_some]
    rcases List.mem_getLast?_eq_getLast (l := l) (x := a)
      (by rw [Option.mem_def]; exact hl) with ⟨hx, rfl⟩
    exact List.getLast_mem hx

theorem getD_map_cmd (f : String → List String) (hosts : List String) (i : Nat)
    (h : i < hosts.length) :
    (hosts.map f).getD i [] = f (hosts.getD i "") := by
  rw [List.getD_eq_getElem?_getD, List.getElem?_map, List.getD_eq_getElem?_getD]
  cases hg : hosts[i]? with
  | none =>
    rw [List.getElem?_eq_none_iff] at hg
    omega
  | some a => simp

/-- The remote path built by SyncTool.sync for a no-sub-path run:
base_dir joined with the sync root directory name. -/
theorem remotePath_wf (baseDir : String) (rootP : PPath)
    (hbase : startsSlash baseDir.data = true)
    (hroot : rootP.comps ≠ [])
    (hrootwf : ∀ x ∈ rootP.comps, '/' ∉ x.data ∧ x.data ≠ [] ∧ x.data ≠ ['.']) :
    (pJoinStr (parsePath baseDir) (pathNameGet rootP)).abs = true
    ∧ (pJoinStr (parsePath baseDir) (pathNameGet rootP)).comps ≠ []
    ∧ ∀ x ∈ (pJoinStr (parsePath baseDir) (pathNameGet rootP)).comps,
        '/' ∉ x.data ∧ x.data ≠ [] ∧ x.data ≠ ['.'] := by
  have hname := hrootwf (pathNameGet rootP) (getLastD_mem rootP.comps "" hroot)
  have hq : parsePath (pathNameGet rootP)
      = { abs := false, comps := [pathNameGet rootP] } :=
    parsePath_singleton _ hname.1 hname.2.1 hname.2.2
  have hjoin : pJoinStr (parsePath baseDir) (pathNameGet rootP)
      = { abs := startsSlash baseDir.data,
          comps := parseComps baseDir.data ++ [pathNameGet rootP] } := by
    unfold pJoinStr
    rw [hq]
    simp [parsePath]
  rw [hjoin]
  refine ⟨hbase, by simp, ?_⟩
  intro x hx
  rcases List.mem_append.mp hx with h | h
  · exact parseComps_wf baseDir.data x h
  · rcases List.mem_singleton.mp h with rfl
    exact hname

/-- The last element of every generated rsync command is the destination
string, rendered through Path parsing and rstrip. -/
theorem syncCommand_getLast (server remoteDir localDir : String)
    (syncDirs ndaDirs : List String) (existsP : PPath → Bool)
    (gitMetaP : PPath) (gitMetaIsDir : Bool) (rsyncIgnorePath : String)
    (delete gitRepo : Bool) (gitIgnore : Option String)
    (h : ¬ rstripSlash (asPosix (parsePath remoteDir)) = "") :
    (syncCommand server remoteDir localDir syncDirs ndaDirs existsP gitMetaP
        gitMetaIsDir rsyncIgnorePath delete gitRepo gitIgnore).getLast?
      = some (rstripSlash (asPosix (parsePath remoteDir))) :=
  filter_append_singleton_getLast _ _ h

/-- The planner, per host: command count and rendered destination. -/
theorem planCommands_spec (server : String) (hosts : List String)
    (baseDir : String) (rootP : PPath) (syncDirs ndaDirs : List String)
    (existsP : PPath → Bool) (gitMetaP : PPath) (gitMetaIsDir : Bool)
    (rsyncIgnorePath : String) (delete gitRepo : Bool)
    (gitIgnore : Option String)
    (hhosts : ∀ h ∈ hosts, '/' ∉ h.data)
    (hbase : startsSlash baseDir.data = true)
    (hroot : rootP.comps ≠ [])
    (hrootwf : ∀ x ∈ rootP.comps, '/' ∉ x.data ∧ x.data ≠ [] ∧ x.data ≠ ['.']) :
    (planCommands server hosts baseDir rootP true syncDirs ndaDirs existsP
        gitMetaP gitMetaIsDir rsyncIgnorePath delete gitRepo gitIgnore).length
      = hosts.length
    ∧ (∀ i, i < hosts.length →
        ((planCommands server hosts baseDir rootP true syncDirs ndaDirs existsP
            gitMetaP gitMetaIsDir rsyncIgnorePath delete gitRepo
            gitIgnore).getD i []).getLast?
          = some (hosts.getD i "" ++ ":"
              ++ asPosix (pJoinStr (parsePath baseDir) (pathNameGet rootP)))) := by
  obtain ⟨hRabs, hRne, hRwf⟩ := remotePath_wf baseDir rootP hbase hroot hrootwf
  constructor
  · unfold planCommands
    simp
  · intro i hi
    have hplan : planCommands server hosts baseDir rootP true syncDirs ndaDirs
        existsP gitMetaP gitMetaIsDir rsyncIgnorePath delete gitRepo gitIgnore
      = hosts.map (fun host =>
          syncCommand server
            (host ++ ":"
              ++ asPosix (pJoinStr (parsePath baseDir) (pathNameGet rootP)) ++ "/")
            (asPosix rootP ++ "/") syncDirs ndaDirs existsP gitMetaP
            gitMetaIsDir rsyncIgnorePath delete gitRepo gitIgnore) := rfl
    rw [hplan, getD_map_cmd _ hosts i hi]
    have hmem := getD_mem_of_lt hosts i "" hi
    have hrt := destRoundTrip (hosts.getD i "")
      (pJoinStr (parsePath baseDir) (pathNameGet rootP))
      (hhosts _ hmem) hRabs hRne hRwf
    have hne2 : ¬ rstripSlash (asPosix (parsePath ((hosts.getD i "") ++ ":"
        ++ asPosix (pJoinStr (parsePath baseDir) (pathNameGet rootP)) ++ "/")))
        = "" := by
      rw [hrt]
      intro hc
      have := congrArg String.data hc
      rw [strData_append, strData_append] at this
      simp at this
    rw [syncCommand_getLast server _ _ syncDirs ndaDirs existsP gitMetaP
      gitMetaIsDir rsyncIgnorePath delete gitRepo gitIgnore hne2, hrt]

theorem syncCommand_excludes_git (server remoteDir localDir : String)
    (syncDirs ndaDirs : List String) (existsP : PPath → Bool)
    (gitMetaP : PPath) (gitMetaIsDir : Bool) (rsyncIgnorePath : String)
    (delete : Bool) (gitIgnore : Option String) :
    "--exclude=.git" ∈ syncCommand server remoteDir localDir syncDirs ndaDirs
      existsP gitMetaP gitMetaIsDir rsyncIgnorePath delete false gitIgnore := by
  refine List.mem_filter.mpr ⟨?_, by decide⟩
  refine List.mem_append.mpr (Or.inl (List.mem_append.mpr (Or.inl ?_)))
  simp

/-- C1 counterexample: at the spec scenario (server prod, hosts h1 and
h2, base_dir /srv, sync root /home/u/common_sync, directory source), the
generated command destination is h1:/srv/common_sync WITHOUT a trailing
path separator: the separator appended by SyncTool.sync is erased when
_sync_command round-trips the string through Path and rstrips it, so the
claimed destination h1:/srv/common_sync/ never appears in a command. -/
theorem c1_counterexample :
    ((planCommands "prod" ["h1", "h2"] "/srv" (parsePath "/home/u/common_sync")
        true ["scripts", "sglang", "my-toolbox"] [] (fun _ => false)
        (parsePath "/home/u/common_sync/commit_msg") false "/tb/.lsyncignore"
        false false none).getD 0 []).getLast? = some "h1:/srv/common_sync"
    ∧ ¬ ((planCommands "prod" ["h1", "h2"] "/srv" (parsePath "/home/u/common_sync")
        true ["scripts", "sglang", "my-toolbox"] [] (fun _ => false)
        (parsePath "/home/u/common_sync/commit_msg") false "/tb/.lsyncignore"
        false false none).getD 0 []).getLast? = some "h1:/srv/common_sync/"
    ∧ (planCommands "prod" ["h1", "h2"] "/srv" (parsePath "/home/u/common_sync")
        true ["scripts", "sglang", "my-toolbox"] [] (fun _ => false)
        (parsePath "/home/u/common_sync/commit_msg") false "/tb/.lsyncignore"
        false false none).length = 2 := by
  refine ⟨by decide, by decide, by decide⟩

/-- C1 amended: with no sub-path, for every configured server with N
destination hosts the planner generates exactly N transfer commands, and
the i-th command destination is host_i, a colon, and base_dir joined
with the sync root name, with NO trailing path separator: the separators
SyncTool.sync appends to the destination and source strings are stripped
again by _sync_command, which re-parses the strings as paths and rstrips
the separator before assembling the command; each command contains the
exclusion of .git when includeGitHistory is false. -/
theorem c1_amended (server : String) (hosts : List String) (baseDir : String)
    (rootP : PPath) (syncDirs ndaDirs : List String) (existsP : PPath → Bool)
    (gitMetaP : PPath) (gitMetaIsDir : Bool) (rsyncIgnorePath : String)
    (delete gitRepo : Bool) (gitIgnore : Option String)
    (hhosts : ∀ h ∈ hosts, '/' ∉ h.data)
    (hbase : startsSlash baseDir.data = true)
    (hroot : rootP.comps ≠ [])
    (hrootwf : ∀ x ∈ rootP.comps, '/' ∉ x.data ∧ x.data ≠ [] ∧ x.data ≠ ['.']) :
    (planCommands server hosts baseDir rootP true syncDirs ndaDirs existsP
        gitMetaP gitMetaIsDir rsyncIgnorePath delete gitRepo gitIgnore).length
      = hosts.length
    ∧ (∀ i, i < hosts.length →
        ((planCommands server hosts baseDir rootP true syncDirs ndaDirs existsP
            gitMetaP gitMetaIsDir rsyncIgnorePath delete gitRepo
            gitIgnore).getD i []).getLast?
          = some (hosts.getD i "" ++ ":"
              ++ asPosix (pJoinStr (parsePath baseDir) (pathNameGet rootP))))
    ∧ (gitRepo = false →
        ∀ c ∈ planCommands server hosts baseDir rootP true syncDirs ndaDirs
          existsP gitMetaP gitMetaIsDir rsyncIgnorePath delete gitRepo gitIgnore,
        "--exclude=.git" ∈ c) := by
  obtain ⟨hlen, hdest⟩ := planCommands_spec server hosts baseDir rootP syncDirs
    ndaDirs existsP gitMetaP gitMetaIsDir rsyncIgnorePath delete gitRepo
    gitIgnore hhosts hbase hroot hrootwf
  refine ⟨hlen, hdest, ?_⟩
  intro hg c hc
  subst hg
  rcases List.mem_map.mp hc with ⟨host, _, rfl⟩
  exact syncCommand_excludes_git server _ _ syncDirs ndaDirs existsP gitMetaP
    gitMetaIsDir rsyncIgnorePath delete gitIgnore

theorem c1_amended_witness :
    ((planCommands "prod" ["h1", "h2"] "/srv" (parsePath "/home/u/common_sync")
        true ["scripts", "sglang", "my-toolbox"] [] (fun _ => false)
        (parsePath "/home/u/common_sync/commit_msg") false "/tb/.lsyncignore"
        false false none).getD 0 []).getLast?
      = some ((["h1", "h2"].getD 0 "") ++ ":"
          ++ asPosix (pJoinStr (parsePath "/srv")
              (pathNameGet (parsePath "/home/u/common_sync")))) :=
  ((c1_amended "prod" ["h1", "h2"] "/srv" (parsePath "/home/u/common_sync")
      ["scripts", "sglang", "my-toolbox"] [] (fun _ => false)
      (parsePath "/home/u/common_sync/commit_msg") false "/tb/.lsyncignore"
      false false none (by decide) (by decide) (by decide) (by decide)).2.1)
    0 (by decide)

/-- C9: a hosts config given as a single scalar string is normalized by
SyncTool.__post_init__ into a one-element host list, so the planner
generates exactly one transfer command, whose destination names the
whole string as the host: the string is never iterated character by
character. -/
theorem c9_single_host (s server baseDir : String) (rootP : PPath)
    (syncDirs ndaDirs : List String) (existsP : PPath → Bool)
    (gitMetaP : PPath) (gitMetaIsDir : Bool) (rsyncIgnorePath : String)
    (delete gitRepo : Bool) (gitIgnore : Option String)
    (hs : '/' ∉ s.data)
    (hbase : startsSlash baseDir.data = true)
    (hroot : rootP.comps ≠ [])
    (hrootwf : ∀ x ∈ rootP.comps, '/' ∉ x.data ∧ x.data ≠ [] ∧ x.data ≠ ['.']) :
    normalizeHosts (HostsCfg.single s) = [s]
    ∧ (planCommands server (normalizeHosts (HostsCfg.single s)) baseDir rootP
        true syncDirs ndaDirs existsP gitMetaP gitMetaIsDir rsyncIgnorePath
        delete gitRepo gitIgnore).length = 1
    ∧ ((planCommands server (normalizeHosts (HostsCfg.single s)) baseDir rootP
        true syncDirs ndaDirs existsP gitMetaP gitMetaIsDir rsyncIgnorePath
        delete gitRepo gitIgnore).getD 0 []).getLast?
      = some (s ++ ":"
          ++ asPosix (pJoinStr (parsePath baseDir) (pathNameGet rootP))) := by
  have hhosts : ∀ h ∈ normalizeHosts (HostsCfg.single s), '/' ∉ h.data := by
    intro h hh
    rcases List.mem_singleton.mp hh with rfl
    exact hs
  obtain ⟨hlen, hdest⟩ := planCommands_spec server (normalizeHosts (HostsCfg.single s))
    baseDir rootP syncDirs ndaDirs existsP gitMetaP gitMetaIsDir rsyncIgnorePath
    delete gitRepo gitIgnore hhosts hbase hroot hrootwf
  exact ⟨rfl, hlen, hdest 0 (by simp [normalizeHosts])⟩

theorem c9_single_host_witness :
    (planCommands "prod" (normalizeHosts (HostsCfg.single "h7")) "/srv"
        (parsePath "/home/u/common_sync") true ["scripts"] [] (fun _ => false)
        (parsePath "/home/u/common_sync/commit_msg") false "/tb/.lsyncignore"
        false false none).length = 1 :=
  (c9_single_host "h7" "prod" "/srv" (parsePath "/home/u/common_sync")
      ["scripts"] [] (fun _ => false) (parsePath "/home/u/common_sync/commit_msg")
      false "/tb/.lsyncignore" false false none
      (by decide) (by decide) (by decide) (by decide)).2.1

/-! ## Canvas invariant lemmas (C2) -/

theorem getD_set_self_int (l : List Int) (j : Nat) (v : Int)
    (h : j < l.length) : (l.set j v).getD j 0 = v := by
  rw [List.getD_eq_getElem?_getD, List.getElem?_set_self h]
  rfl

theorem getD_set_other_int (l : List Int) (i j : Nat) (v : Int)
    (h : j ≠ i) : (l.set j v).getD i 0 = l.getD i 0 := by
  rw [List.getD_eq_getElem?_getD, List.getElem?_set_ne h,
    List.getD_eq_getElem?_getD]

theorem getD_replicate_zero_int (n i : Nat) (h : i < n) :
    (List.replicate n (0 : Int)).getD i 0 = 0 := by
  rw [List.getD_eq_getElem?_getD, List.getElem?_replicate_of_lt h]
  rfl

/-- One update_char call preserves the canvas invariant, extending the
record of the targeted line. -/
theorem uiInv_step (L j : Nat) (ch : Char) (st : UIState)
    (sent : Nat → List Char) (hInv : UIInv L st sent) (hj : j < L) :
    UIInv L (uiUpdateChar j ch st)
      (fun i => if j = i then sentStep (sent i) ch else sent i) := by
  obtain ⟨h1, h2, h3, h4, h5, h6, h7, h8⟩ := hInv
  by_cases hnl : ch = '\n' ∨ ch = '\r'
  · have hstate : uiUpdateChar j ch st =
        { maxLines := L, curLine := (L : Int), curCol := 0,
          termLine := (L : Int), termCol := 0,
          linePos := st.linePos.set j 0,
          screen := st.screen } := by
      unfold uiUpdateChar uiResetPos uiMoveCursor moveVertical moveHorizontal
      rw [if_pos hnl]
      simp only []
      rw [h1, h2, h3, h4, h5]
      have e1 : (L : Int) + ((L : Int) - (L : Int)) = (L : Int) := by ring
      have e2 : (0 : Int) + ((0 : Int) - (0 : Int)) = (0 : Int) := by ring
      rw [e1, e2]
    rw [hstate]
    refine ⟨rfl, rfl, rfl, rfl, rfl, by rw [List.length_set]; exact h6, ?_, ?_⟩
    · intro i hi
      simp only []
      by_cases hij : j = i
      · subst hij
        rw [getD_set_self_int _ _ _ (by rw [h6]; exact hj)]
        simp [sentStep, hnl]
      · rw [getD_set_other_int _ _ _ _ hij]
        rw [if_neg hij]
        exact h7 i hi
    · intro i c hi hc
      simp only [] at hc ⊢
      by_cases hij : j = i
      · subst hij
        rw [if_pos rfl] at hc
        simp only [sentStep, if_pos hnl] at hc
        exact absurd hc (by simp)
      · rw [if_neg hij] at hc ⊢
        exact h8 i c hi hc
  · have hpos := h7 j hj
    have hstate : uiUpdateChar j ch st =
        { maxLines := L, curLine := (L : Int), curCol := 0,
          termLine := (L : Int), termCol := 0,
          linePos := st.linePos.set j (((sent j).length : Int) + 1),
          screen := fun l co =>
            if l = (j : Int) ∧ co = ((sent j).length : Int) then some ch
            else st.screen l co } := by
      unfold uiUpdateChar uiResetPos uiMoveCursor moveVertical moveHorizontal uiPrintChar
      rw [if_neg hnl]
      simp only []
      rw [h1, h2, h3, h4, h5, hpos]
      have eL : (L : Int) + ((j : Int) - (L : Int)) = (j : Int) := by ring
      have eC : (0 : Int) + (((sent j).length : Int) - (0 : Int))
          = ((sent j).length : Int) := by ring
      rw [eL, eC]
      have eT : (j : Int) + ((L : Int) - (j : Int)) = (L : Int) := by ring
      have eT2 : ((sent j).length : Int) + 1 + ((0 : Int) - (((sent j).length : Int) + 1))
          = (0 : Int) := by ring
      rw [eT, eT2]
    rw [hstate]
    refine ⟨rfl, rfl, rfl, rfl, rfl, by rw [List.length_set]; exact h6, ?_, ?_⟩
    · intro i hi
      simp only []
      by_cases hij : j = i
      · subst hij
        rw [getD_set_self_int _ _ _ (by rw [h6]; exact hj), if_pos rfl]
        simp only [sentStep, if_neg hnl, List.length_append, List.length_singleton]
        push_cast
        ring
      · rw [getD_set_other_int _ _ _ _ hij, if_neg hij]
        exact h7 i hi
    · intro i c hi hc
      simp only [] at hc ⊢
      by_cases hij : j = i
      · subst hij
        rw [if_pos rfl] at hc ⊢
        simp only [sentStep, if_neg hnl] at hc ⊢
        by_cases hce : c = (sent j).length
        · subst hce
          rw [if_pos (by simp)]
          rw [List.get?_concat_length]
        · have hcl : c < (sent j).length := by
            rw [List.length_append] at hc
            simp only [List.length_singleton] at hc
            omega
          have hcnd : ¬ (True
              ∧ ((c : Nat) : Int) = (((sent j).length : Nat) : Int)) := by
            intro hand
            exact hce (by exact_mod_cast hand.2)
          rw [if_neg hcnd]
          rw [List.get?_append hcl]
          exact h8 j c hi hcl
      · rw [if_neg hij] at hc ⊢
        have hcnd : ¬ (((i : Nat) : Int) = ((j : Nat) : Int)
            ∧ ((c : Nat) : Int) = (((sent j).length : Nat) : Int)) := by
          intro hand
          apply hij
          have hji := hand.1
          exact_mod_cast hji.symm
        rw [if_neg hcnd]
        exact h8 i c hi hc

/-- Running a trace of update_char calls from an invariant state keeps
the invariant, with each line record folded through the trace. -/
theorem uiInv_run (L : Nat) (trace : List (Nat × Char)) (st : UIState)
    (sent : Nat → List Char) (hInv : UIInv L st sent)
    (htr : ∀ pr ∈ trace, pr.1 < L) :
    UIInv L (runUIFrom st trace)
      (fun i => trace.foldl
        (fun acc pr => if pr.1 = i then sentStep acc pr.2 else acc) (sent i)) := by
  induction trace generalizing st sent with
  | nil => simpa [runUIFrom] using hInv
  | cons pr rest ih =>
    simp only [runUIFrom, List.foldl_cons]
    have hstep := uiInv_step L pr.1 pr.2 st sent hInv
      (htr pr (List.mem_cons_self pr rest))
    have hrest := ih (uiUpdateChar pr.1 pr.2 st)
      (fun i => if pr.1 = i then sentStep (sent i) pr.2 else sent i)
      hstep (fun q hq => htr q (List.mem_cons_of_mem pr hq))
    simpa [runUIFrom] using hrest

theorem uiInv_init (L : Nat) : UIInv L (initUI L) (fun _ => []) := by
  unfold initUI uiResetPos uiMoveCursor moveVertical moveHorizontal
  simp only []
  refine ⟨rfl, rfl, rfl, by simp, by simp, by simp, ?_, ?_⟩
  · intro i hi
    rw [getD_replicate_zero_int L i hi]
    rfl
  · intro i c hi hc
    simp at hc

/-- C2 amended: for every trace of update_char calls with line indices
below L, and every line i, the characters sent to line i since its last
reset occupy columns 0 through k-1 of terminal line i, in order (k being
their count), regardless of interleaving with other lines; columns at or
beyond k are not asserted because a shorter burst after a reset leaves
the tail of the previous burst visible on screen. -/
theorem c2_canvas_invariant (L : Nat) (trace : List (Nat × Char))
    (htr : ∀ pr ∈ trace, pr.1 < L) :
    ∀ i, i < L → ∀ c, c < (sentSince trace i).length →
      (runUI L trace).screen ((i : Nat) : Int) ((c : Nat) : Int)
        = (sentSince trace i).get? c := by
  have h := uiInv_run L trace (initUI L) (fun _ => []) (uiInv_init L) htr
  intro i hi c hc
  exact h.2.2.2.2.2.2.2 i c hi hc

/-- C2 counterexample: send a, b, then a carriage return, then c to line
0 of a one-line canvas.  The claim says the final content of line 0
equals the record since the last reset, the single character c; but the
cell at column 1 still holds the stale b from before the reset, so the
full-line equality fails. -/
theorem c2_counterexample :
    ¬ lineContentIs (runUI 1 [(0, 'a'), (0, 'b'), (0, '\r'), (0, 'c')]) 0
        (sentSince [(0, 'a'), (0, 'b'), (0, '\r'), (0, 'c')] 0) := by
  intro h
  have h1 := h 1
  have h2 : (runUI 1 [(0, 'a'), (0, 'b'), (0, '\r'), (0, 'c')]).screen
      ((0 : Nat) : Int) ((1 : Nat) : Int) = some 'b' := by decide
  rw [h2] at h1
  have h3 : (sentSince [(0, 'a'), (0, 'b'), (0, '\r'), (0, 'c')] 0).get? 1
      = none := by decide
  rw [h3] at h1
  cases h1

theorem c2_canvas_invariant_witness :
    (runUI 1 [(0, 'a')]).screen ((0 : Nat) : Int) ((0 : Nat) : Int)
      = (sentSince [(0, 'a')] 0).get? 0 :=
  c2_canvas_invariant 1 [(0, 'a')] (by decide) 0 (by decide) 0 (by decide)
